import Mathlib

/-!
Verification development for the SmartPlayer playback engine
(src/components/SmartPlayer.tsx).

The embedding models:
* `decodePCM` (lines 21-44): raw PCM 16-bit little-endian decode,
  including the JavaScript `TypedArray` semantics of `subarray` (a view
  sharing the underlying buffer) and of the `Int16Array(buffer)`
  constructor (which views the WHOLE underlying buffer and throws a
  `RangeError` when the buffer's byte length is not a multiple of 2).
* the asset-loading loop of `loadAssets` (lines 86-121) with its
  per-segment fallbacks;
* the `playSegment` / `togglePlay` / completion-callback state machine
  (lines 142-205) with an explicit action trace for audio sources;
* the per-frame computations of `renderLoop` (lines 207-348):
  segment progress clamp, Ken Burns zoom scale, greedy word wrap,
  and the cross-segment progress-bar fraction.

Samples and durations are modelled over `ℚ` (the JavaScript numbers
involved are exact dyadic or small decimal values), byte payloads as
`List Nat`, and strings as `List Char`.
-/

namespace SmartPlayer

/-- A JavaScript `Uint8Array`: a view (offset, length) on an underlying
`ArrayBuffer`, modelled as the byte list `buffer`.  `subarray` returns a
new view on the SAME buffer. -/
structure ByteView where
  buffer : List Nat
  byteOffset : Nat
  byteLength : Nat
  deriving Repr, DecidableEq

/-- `data.subarray(0, len)`: same underlying buffer, clipped length. -/
def ByteView.subarray0 (v : ByteView) (len : Nat) : ByteView :=
  { buffer := v.buffer, byteOffset := v.byteOffset, byteLength := min len v.byteLength }

/-- A fresh `Uint8Array` over its own buffer, as produced by
`decodeBase64` (SmartPlayer.tsx lines 10-18). -/
def mkView (bytes : List Nat) : ByteView :=
  { buffer := bytes, byteOffset := 0, byteLength := bytes.length }

/-- One 16-bit signed little-endian value from two bytes. -/
def toInt16 (lo hi : Nat) : Int :=
  let v := lo + 256 * hi
  if v < 32768 then (v : Int) else (v : Int) - 65536

/-- `new Int16Array(buffer)` element view: consecutive little-endian
16-bit values over the byte list. -/
def bytesToInt16 : List Nat → List Int
  | lo :: hi :: rest => toInt16 lo hi :: bytesToInt16 rest
  | _ => []

/-- A decoded Web Audio `AudioBuffer`: per-channel sample data, frame
count (`length`) and sample rate. -/
structure AudioBuffer where
  numChannels : Nat
  length : Nat
  sampleRate : Nat
  channelData : List (List ℚ)
  deriving Repr, DecidableEq

/-- `buffer.duration` in seconds: frame count over sample rate. -/
def AudioBuffer.duration (b : AudioBuffer) : ℚ :=
  (b.length : ℚ) / (b.sampleRate : ℚ)

/-- `ctx.createBuffer(numChannels, length, sampleRate)`: zero-filled
channels. -/
def createBuffer (numChannels length sampleRate : Nat) : AudioBuffer :=
  { numChannels := numChannels, length := length, sampleRate := sampleRate,
    channelData := List.replicate numChannels (List.replicate length 0) }

/-- PCM 16-bit sample normalized to a float in [-1.0, 1.0]:
`dataInt16[k] / 32768.0`. -/
def int16ToFloat (v : Int) : ℚ := (v : ℚ) / 32768

/-- `decodePCM` (SmartPlayer.tsx lines 21-44), with JavaScript
typed-array semantics made explicit.  The odd-length guard reassigns
`data` to `data.subarray(0, byteLength - 1)`, but the next line builds
`new Int16Array(data.buffer)` from the UNDERLYING buffer, which still
has its original (odd) byte length, so the constructor throws a
`RangeError` (`Except.error`).  `ctx.createBuffer` additionally throws
a `NotSupportedError` when the frame count is 0. -/
def decodePCM (data : ByteView) (sampleRate : Nat) (numChannels : Nat) :
    Except Unit AudioBuffer :=
  let data := if data.byteLength % 2 ≠ 0 then data.subarray0 (data.byteLength - 1) else data
  if data.buffer.length % 2 ≠ 0 then Except.error ()
  else
    let dataInt16 := bytesToInt16 data.buffer
    let frameCount := dataInt16.length / numChannels
    if frameCount = 0 then Except.error ()
    else Except.ok
      { numChannels := numChannels, length := frameCount, sampleRate := sampleRate,
        channelData := (List.range numChannels).map (fun channel =>
          (List.range frameCount).map (fun i =>
            int16ToFloat (dataInt16.getD (i * numChannels + channel) 0))) }

/-- A decoded drawable image (`ImageBitmap`). -/
structure ImageBitmap where
  width : Nat
  height : Nat
  deriving Repr, DecidableEq

/-- The 1x1 fallback bitmap built from a fresh canvas on image-decode
failure (SmartPlayer.tsx lines 110-114). -/
def placeholderBitmap : ImageBitmap := { width := 1, height := 1 }

/-- The silent fallback `ctx.createBuffer(1, 24000, 24000)` used on
audio-decode failure (SmartPlayer.tsx line 96). -/
def silentFallback : AudioBuffer := createBuffer 1 24000 24000

/-- A segment's payloads as the player consumes them: the narration
audio as raw bytes (the result of `decodeBase64`) and the image payload
as an opaque string. -/
structure Segment where
  audioData : List Nat
  imageData : String

/-- The audio half of one loop iteration of `loadAssets`
(SmartPlayer.tsx lines 87-99): try `decodePCM` at 24 kHz mono, fall
back to the silent buffer on any thrown error. -/
def decodeAudioStep (seg : Segment) : AudioBuffer :=
  match decodePCM (mkView seg.audioData) 24000 1 with
  | Except.ok b => b
  | Except.error _ => silentFallback

/-- The image half of one loop iteration of `loadAssets`
(SmartPlayer.tsx lines 101-115).  The browser-side JPEG decode
(`fetch` data-URL + `createImageBitmap`) is abstracted as the
parameter `decodeImage`; `none` models a thrown decode error, answered
by the 1x1 placeholder. -/
def decodeImageStep (decodeImage : String → Option ImageBitmap) (seg : Segment) :
    ImageBitmap :=
  match decodeImage seg.imageData with
  | some img => img
  | none => placeholderBitmap

/-- The sequential asset-decoding loop of `loadAssets`
(SmartPlayer.tsx lines 86-117): one audio buffer and one bitmap pushed
per segment, in order. -/
def loadAssets (decodeImage : String → Option ImageBitmap) :
    List Segment → List AudioBuffer × List ImageBitmap
  | [] => ([], [])
  | seg :: rest =>
    let tail := loadAssets decodeImage rest
    (decodeAudioStep seg :: tail.1, decodeImageStep decodeImage seg :: tail.2)

theorem loadAssets_fst_length (decodeImage : String → Option ImageBitmap)
    (segs : List Segment) : (loadAssets decodeImage segs).1.length = segs.length := by
  induction segs with
  | nil => rfl
  | cons seg rest ih => simpa [loadAssets] using ih

theorem loadAssets_snd_length (decodeImage : String → Option ImageBitmap)
    (segs : List Segment) : (loadAssets decodeImage segs).2.length = segs.length := by
  induction segs with
  | nil => rfl
  | cons seg rest ih => simpa [loadAssets] using ih

theorem loadAssets_fst_get (decodeImage : String → Option ImageBitmap)
    (segs : List Segment) (i : Nat) (h : i < segs.length)
    (h2 : i < (loadAssets decodeImage segs).1.length) :
    (loadAssets decodeImage segs).1.get ⟨i, h2⟩ = decodeAudioStep (segs.get ⟨i, h⟩) := by
  induction segs generalizing i with
  | nil => exact absurd h (Nat.not_lt_zero i)
  | cons seg rest ih =>
    cases i with
    | zero => rfl
    | succ j =>
      have hj : j < rest.length := Nat.lt_of_succ_lt_succ h
      have hj2 : j < (loadAssets decodeImage rest).1.length := by
        rw [loadAssets_fst_length]; exact hj
      simpa [loadAssets, List.get] using ih j hj hj2

theorem loadAssets_snd_get (decodeImage : String → Option ImageBitmap)
    (segs : List Segment) (i : Nat) (h : i < segs.length)
    (h2 : i < (loadAssets decodeImage segs).2.length) :
    (loadAssets decodeImage segs).2.get ⟨i, h2⟩ =
      decodeImageStep decodeImage (segs.get ⟨i, h⟩) := by
  induction segs generalizing i with
  | nil => exact absurd h (Nat.not_lt_zero i)
  | cons seg rest ih =>
    cases i with
    | zero => rfl
    | succ j =>
      have hj : j < rest.length := Nat.lt_of_succ_lt_succ h
      have hj2 : j < (loadAssets decodeImage rest).2.length := by
        rw [loadAssets_snd_length]; exact hj
      simpa [loadAssets, List.get] using ih j hj hj2

/-- JavaScript `text.split(' ')` over the characters of the caption:
splits at every space; the empty text yields one empty word. -/
def splitOnSpace : List Char → List (List Char)
  | [] => [[]]
  | c :: rest =>
    if c = ' ' then [] :: splitOnSpace rest
    else
      match splitOnSpace rest with
      | [] => [[c]]
      | w :: ws => (c :: w) :: ws

theorem splitOnSpace_ne_nil (cs : List Char) : splitOnSpace cs ≠ [] := by
  cases cs with
  | nil => simp [splitOnSpace]
  | cons c rest =>
    by_cases hc : c = ' '
    · simp [splitOnSpace, hc]
    · cases h : splitOnSpace rest with
      | nil => simp [splitOnSpace, hc, h]
      | cons w ws => simp [splitOnSpace, hc, h]

/-- The greedy word-wrap loop body of `renderLoop` (SmartPlayer.tsx
lines 308-318): `n` is the loop counter, `line` the line under
construction, `lines` the committed lines; the final `lines.push(line)`
of line 318 is the base case. -/
def wrapGo (measure : List Char → ℚ) (maxWidth : ℚ) :
    List (List Char) → Nat → List Char → List (List Char) → List (List Char)
  | [], _, line, lines => lines ++ [line]
  | w :: ws, n, line, lines =>
    let testLine := line ++ w ++ [' ']
    if maxWidth < measure testLine ∧ 0 < n then
      wrapGo measure maxWidth ws (n + 1) (w ++ [' ']) (lines ++ [line])
    else
      wrapGo measure maxWidth ws (n + 1) testLine lines

/-- The caption word wrap of `renderLoop` (SmartPlayer.tsx lines
302-318): split the narration text on spaces, then greedily fill lines
no wider than `maxWidth` under the abstract text metric `measure`
(`ctx.measureText(...).width`). -/
def wordWrap (measure : List Char → ℚ) (maxWidth : ℚ) (text : List Char) :
    List (List Char) :=
  wrapGo measure maxWidth (splitOnSpace text) 0 [] []

theorem wrapGo_flatten (measure : List Char → ℚ) (maxWidth : ℚ)
    (ws : List (List Char)) (n : Nat) (line : List Char) (lines : List (List Char)) :
    (wrapGo measure maxWidth ws n line lines).flatten =
      lines.flatten ++ line ++ (ws.map (fun w => w ++ [' '])).flatten := by
  induction ws generalizing n line lines with
  | nil => simp [wrapGo]
  | cons w rest ih =>
    simp only [wrapGo]
    split
    · rw [ih]; simp [List.append_assoc]
    · rw [ih]; simp [List.append_assoc]

theorem splitOnSpace_flatten (cs : List Char) :
    ((splitOnSpace cs).map (fun w => w ++ [' '])).flatten = cs ++ [' '] := by
  induction cs with
  | nil => simp [splitOnSpace]
  | cons c rest ih =>
    by_cases hc : c = ' '
    · simp [splitOnSpace, hc, ih]
    · cases h : splitOnSpace rest with
      | nil => exact absurd h (splitOnSpace_ne_nil rest)
      | cons w ws =>
        rw [h] at ih
        simp only [splitOnSpace, hc, if_neg, h, List.map_cons, List.flatten_cons] at ih ⊢
        simpa [List.append_assoc] using ih

theorem wrapGo_length (measure : List Char → ℚ) (maxWidth : ℚ)
    (ws : List (List Char)) (n : Nat) (line : List Char) (lines : List (List Char)) :
    lines.length + 1 ≤ (wrapGo measure maxWidth ws n line lines).length := by
  induction ws generalizing n line lines with
  | nil => simp [wrapGo]
  | cons w rest ih =>
    by_cases hcond : maxWidth < measure (line ++ w ++ [' ']) ∧ 0 < n
    · simp only [wrapGo, if_pos hcond]
      calc lines.length + 1 ≤ (lines ++ [line]).length + 1 := by simp
        _ ≤ _ := ih (n + 1) (w ++ [' ']) (lines ++ [line])
    · simp only [wrapGo, if_neg hcond]
      exact ih (n + 1) (line ++ w ++ [' ']) lines

theorem splitOnSpace_no_space (cs : List Char) (h : ' ' ∉ cs) :
    splitOnSpace cs = [cs] := by
  induction cs with
  | nil => rfl
  | cons c rest ih =>
    have hc : c ≠ ' ' := fun hc => h (by simp [hc])
    have hrest : ' ' ∉ rest := fun hr => h (by simp [hr])
    simp [splitOnSpace, hc, ih hrest]

/-- The mutable playback state of the player (SmartPlayer.tsx lines
50-64): the `isPlaying` / `currentSegmentIndex` React state, the bound
audio source (`currentSourceRef`, its segment index, and whether it has
finished), and the audio context's running/suspended state.  The ghost
flag `finished` is not a source variable: it records that the code took
the `index >= video.segments.length` early return of `playSegment`
(lines 143-146), the transition the specification calls FINISHED; it is
cleared whenever a segment actually starts. -/
structure PlayerState where
  isPlaying : Bool
  currentSegmentIndex : Nat
  hasSource : Bool
  sourceIndex : Nat
  sourceEnded : Bool
  ctxRunning : Bool
  finished : Bool
  deriving Repr, DecidableEq

/-- Audio-source commands issued by `playSegment`, in program order. -/
inductive PAction where
  | stopSource (idx : Nat)
  | startSource (idx : Nat)
  deriving Repr, DecidableEq

/-- `playSegment(index)` (SmartPlayer.tsx lines 142-175) over `N`
segments: past the end it only clears `isPlaying` (the FINISHED early
return, recorded in the ghost flag); otherwise it stops the currently
bound source if any (lines 151-153), starts a fresh source for `index`
(lines 155-166), records the index and sets `isPlaying` (lines
168-170).  The returned list is the audio-source command trace in
program order. -/
def playSegment (N : Nat) (i : Nat) (s : PlayerState) : PlayerState × List PAction :=
  if N ≤ i then
    ({ s with isPlaying := false, finished := true }, [])
  else
    ({ s with currentSegmentIndex := i, isPlaying := true, hasSource := true,
              sourceIndex := i, sourceEnded := false, finished := false },
     (if s.hasSource then [PAction.stopSource s.sourceIndex] else []) ++
       [PAction.startSource i])

/-- Initial player state right after `loadAssets` finishes decoding
(SmartPlayer.tsx lines 119-121): index 0, nothing playing, no source
bound; the audio context may be running or suspended (autoplay
policy). -/
def initState (running : Bool) : PlayerState :=
  { isPlaying := false, currentSegmentIndex := 0, hasSource := false,
    sourceIndex := 0, sourceEnded := false, ctxRunning := running,
    finished := false }

/-- `togglePlay` (SmartPlayer.tsx lines 177-205): resume the context if
suspended; then either suspend (pause) when playing, or — when not
playing — restart from segment 0 if the finished-check of line 197
holds, else just set `isPlaying`.  (The inner `ctx.state === 'suspended'`
branch of line 191 is dead: the context was resumed at lines 181-183.) -/
def togglePlay (N : Nat) (s : PlayerState) : PlayerState :=
  let s1 := if s.ctxRunning then s else { s with ctxRunning := true }
  if s1.isPlaying then
    if s1.ctxRunning then { s1 with ctxRunning := false, isPlaying := false } else s1
  else
    if N ≤ s1.currentSegmentIndex ∨
        (N - 1 ≤ s1.currentSegmentIndex ∧ s1.hasSource = false) then
      (playSegment N 0 s1).1
    else { s1 with isPlaying := true }

/-- Events that mutate playback state after load: the `onended`
completion callback of the bound source (lines 159-163), which fires
when the context is running and the source has played to its end and
invokes `playSegment(index + 1)`; and a `togglePlay` transport command.
(In reachable states `stop()` is only ever applied to sources that have
already ended, so a stop never fires a second completion.) -/
inductive Step (N : Nat) : PlayerState → PlayerState → Prop
  | complete (s : PlayerState) :
      s.hasSource = true → s.sourceEnded = false → s.ctxRunning = true →
      Step N s (playSegment N (s.sourceIndex + 1) { s with sourceEnded := true }).1
  | toggle (s : PlayerState) : Step N s (togglePlay N s)

/-- States reachable from the end of the load phase: the load either
leaves the player idle (context suspended) or auto-plays segment 0
(context running, lines 124-126), then events fire. -/
inductive Reachable (N : Nat) : PlayerState → Prop
  | loadSuspended : Reachable N (initState false)
  | loadRunning : Reachable N (playSegment N 0 (initState true)).1
  | step (s t : PlayerState) : Reachable N s → Step N s t → Reachable N t

/-- Whether one `renderLoop` pass schedules another tick: the paused
keep-alive of lines 211-214 reschedules; the early return of line 228
does not; otherwise line 345-347 reschedules exactly when playing. -/
def renderTickSchedules (N : Nat) (s : PlayerState) : Bool :=
  if s.isPlaying = false ∧ s.ctxRunning = false then true
  else if N ≤ s.currentSegmentIndex then false
  else s.isPlaying

/-- `segmentDuration` in milliseconds (SmartPlayer.tsx line 232):
`buffer ? buffer.duration * 1000 : 5000`. -/
def segmentDurationMs (buffer : Option AudioBuffer) : ℚ :=
  match buffer with
  | some b => b.duration * 1000
  | none => 5000

/-- Per-segment progress (SmartPlayer.tsx lines 236-237):
`Math.min(Math.max(elapsed / segmentDuration, 0), 1)`. -/
def segProgress (elapsedMs : ℚ) (buffer : Option AudioBuffer) : ℚ :=
  min (max (elapsedMs / segmentDurationMs buffer) 0) 1

/-- The Ken Burns zoom scale (SmartPlayer.tsx line 247):
`1.0 + progress * 0.15`. -/
def kenBurnsScale (progress : ℚ) : ℚ := 1 + progress * (15 / 100)

/-- `reduce((acc, b) => acc + (b?.duration || 0), 0)` over a list of
decoded buffers (SmartPlayer.tsx lines 330-331); the entries are never
null and `|| 0` maps a zero duration to itself. -/
def sumDurations (bufs : List AudioBuffer) : ℚ :=
  bufs.foldl (fun acc b => acc + b.duration) 0

/-- The progress-bar filled fraction (SmartPlayer.tsx lines 330-335):
durations of the segments before the current one, plus elapsed seconds
into it, over the total duration, capped at 1. -/
def totalProgressPct (bufs : List AudioBuffer) (segmentIdx : Nat) (elapsedMs : ℚ) : ℚ :=
  let totalDuration := sumDurations bufs
  let prevDuration := sumDurations (bufs.take segmentIdx)
  let currentProgress := prevDuration + elapsedMs / 1000
  min (currentProgress / totalDuration) 1

theorem foldl_dur (l : List AudioBuffer) (a : ℚ) :
    l.foldl (fun acc b => acc + b.duration) a =
      a + l.foldl (fun acc b => acc + b.duration) 0 := by
  induction l generalizing a with
  | nil => simp
  | cons b rest ih =>
    rw [List.foldl_cons, List.foldl_cons, ih (a + b.duration), ih (0 + b.duration)]
    ring

theorem sumDurations_cons (b : AudioBuffer) (l : List AudioBuffer) :
    sumDurations (b :: l) = b.duration + sumDurations l := by
  show List.foldl _ (0 + b.duration) l = _
  rw [foldl_dur]
  unfold sumDurations
  ring

theorem sumDurations_append (l1 l2 : List AudioBuffer) :
    sumDurations (l1 ++ l2) = sumDurations l1 + sumDurations l2 := by
  unfold sumDurations
  rw [List.foldl_append, foldl_dur]

theorem sumDurations_nonneg (l : List AudioBuffer)
    (h : ∀ b ∈ l, 0 ≤ b.duration) : 0 ≤ sumDurations l := by
  induction l with
  | nil => simp [sumDurations]
  | cons b rest ih =>
    rw [sumDurations_cons]
    have hb : 0 ≤ b.duration := h b (by simp)
    have hr : 0 ≤ sumDurations rest := ih (fun x hx => h x (by simp [hx]))
    linarith

/-- C2: For every audio payload of odd byte length 2n+1, `decodePCM` is
claimed to drop the trailing byte and decode the first 2n bytes.  The
code instead THROWS: the odd-length guard reassigns the `subarray`
view, but `new Int16Array(data.buffer)` is built from the underlying
buffer, which still has odd byte length, so the constructor raises a
RangeError.  Concretely, the 3-byte payload [1, 2, 3] makes `decodePCM`
raise instead of returning the 1-sample buffer [513 / 32768]. -/
theorem decodePCM_odd_length_raises :
    decodePCM (mkView [1, 2, 3]) 24000 1 = Except.error () := rfl

/-- C5: The audio decode step of the load phase never raises to its
caller: whenever `decodePCM` throws on a segment's payload, the load
loop stores the silent fallback `ctx.createBuffer(1, 24000, 24000)` —
one second of zeros at 24 kHz — at that segment's index and keeps the
sequence aligned (length preserved, every other segment still
processed). -/
theorem loadAssets_audio_failure_silent (decodeImage : String → Option ImageBitmap)
    (segs : List Segment) (i : Nat) (h : i < segs.length)
    (h2 : i < (loadAssets decodeImage segs).1.length)
    (hfail : decodePCM (mkView (segs.get ⟨i, h⟩).audioData) 24000 1 = Except.error ()) :
    (loadAssets decodeImage segs).1.length = segs.length ∧
    (loadAssets decodeImage segs).1.get ⟨i, h2⟩ = silentFallback ∧
    silentFallback.numChannels = 1 ∧ silentFallback.length = 24000 ∧
    silentFallback.sampleRate = 24000 ∧
    silentFallback.channelData = [List.replicate 24000 (0 : ℚ)] := by
  refine ⟨loadAssets_fst_length decodeImage segs, ?_, rfl, rfl, rfl, rfl⟩
  rw [loadAssets_fst_get decodeImage segs i h h2]
  unfold decodeAudioStep
  rw [hfail]

/-- A one-segment demo project whose audio payload has odd byte
length. -/
def demoSegs : List Segment := [{ audioData := [1, 2, 3], imageData := "x" }]

theorem loadAssets_audio_failure_silent_witness :
    decodePCM (mkView [1, 2, 3]) 24000 1 = Except.error () ∧
    (loadAssets (fun _ => none) demoSegs).1.length = 1 ∧
    (loadAssets (fun _ => none) demoSegs).1.get ⟨0, by decide⟩ = silentFallback := by
  refine ⟨rfl, ?_, ?_⟩
  · exact (loadAssets_audio_failure_silent (fun _ => none) demoSegs 0 (by decide)
      (by decide) (by rfl)).1
  · exact (loadAssets_audio_failure_silent (fun _ => none) demoSegs 0 (by decide)
      (by decide) (by rfl)).2.1

/-- C7: The decode phase produces an audio sequence and an image
sequence each of length exactly the segment count, index-aligned with
the segments: a failed audio decode contributes the silent fallback at
that index and a failed image decode contributes the 1x1 placeholder,
never an omission. -/
theorem loadAssets_aligned_fallbacks (decodeImage : String → Option ImageBitmap)
    (segs : List Segment) (i : Nat) (h : i < segs.length)
    (ha : i < (loadAssets decodeImage segs).1.length)
    (hb : i < (loadAssets decodeImage segs).2.length) :
    (loadAssets decodeImage segs).1.length = segs.length ∧
    (loadAssets decodeImage segs).2.length = segs.length ∧
    (decodePCM (mkView (segs.get ⟨i, h⟩).audioData) 24000 1 = Except.error () →
      (loadAssets decodeImage segs).1.get ⟨i, ha⟩ = silentFallback) ∧
    (decodeImage (segs.get ⟨i, h⟩).imageData = none →
      (loadAssets decodeImage segs).2.get ⟨i, hb⟩ = placeholderBitmap) ∧
    placeholderBitmap.width = 1 ∧ placeholderBitmap.height = 1 := by
  refine ⟨loadAssets_fst_length decodeImage segs, loadAssets_snd_length decodeImage segs,
    ?_, ?_, rfl, rfl⟩
  · intro hfail
    rw [loadAssets_fst_get decodeImage segs i h ha]
    unfold decodeAudioStep
    rw [hfail]
  · intro hfail
    rw [loadAssets_snd_get decodeImage segs i h hb]
    unfold decodeImageStep
    rw [hfail]

theorem loadAssets_aligned_fallbacks_witness :
    (loadAssets (fun _ => none) demoSegs).1.get ⟨0, by decide⟩ = silentFallback ∧
    (loadAssets (fun _ => none) demoSegs).2.get ⟨0, by decide⟩ = placeholderBitmap := by
  refine ⟨?_, ?_⟩
  · exact (loadAssets_aligned_fallbacks (fun _ => none) demoSegs 0 (by decide)
      (by decide) (by decide)).2.2.1 (by rfl)
  · exact (loadAssets_aligned_fallbacks (fun _ => none) demoSegs 0 (by decide)
      (by decide) (by decide)).2.2.2.1 (by rfl)

/-- C9: A caption consisting of exactly one word (no space character)
whose measured width exceeds the maximum line width still wraps to
exactly one line (the word with its trailing space), without raising:
the `n > 0` guard prevents committing an empty first line. -/
theorem wordWrap_single_wide_word (measure : List Char → ℚ) (maxWidth : ℚ)
    (text : List Char) (hw : ' ' ∉ text) (_hwide : maxWidth < measure text) :
    wordWrap measure maxWidth text = [text ++ [' ']] := by
  rw [wordWrap, splitOnSpace_no_space text hw]
  simp [wrapGo]

theorem wordWrap_single_wide_word_witness :
    (' ' ∉ ['h', 'i']) ∧
    ((0 : ℚ) < (fun l : List Char => (l.length : ℚ)) ['h', 'i']) ∧
    wordWrap (fun l : List Char => (l.length : ℚ)) 0 ['h', 'i'] = [['h', 'i', ' ']] :=
  ⟨by decide, by norm_num,
   wordWrap_single_wide_word (fun l : List Char => (l.length : ℚ)) 0 ['h', 'i']
     (by decide) (by norm_num)⟩

/-- C10: For every caption text (including the empty one) the greedy
word wrap produces at least one line, and the concatenation of the
produced lines in order is exactly the original text followed by a
single trailing space: no character is lost, duplicated or
reordered. -/
theorem wordWrap_preserves_text (measure : List Char → ℚ) (maxWidth : ℚ)
    (text : List Char) :
    1 ≤ (wordWrap measure maxWidth text).length ∧
    (wordWrap measure maxWidth text).flatten = text ++ [' '] := by
  constructor
  · have h := wrapGo_length measure maxWidth (splitOnSpace text) 0 [] []
    simpa [wordWrap] using h
  · rw [wordWrap, wrapGo_flatten]
    simp [splitOnSpace_flatten]

theorem playSegment_idx_lt (N i : Nat) (s : PlayerState)
    (h : s.currentSegmentIndex < N) :
    ((playSegment N i s).1).currentSegmentIndex < N := by
  by_cases hNi : N ≤ i
  · simpa [playSegment, hNi] using h
  · simp only [playSegment, if_neg hNi]
    omega

theorem togglePlay_idx_lt (N : Nat) (s : PlayerState)
    (h : s.currentSegmentIndex < N) :
    (togglePlay N s).currentSegmentIndex < N := by
  obtain ⟨ip, idx, hsrc, sidx, send, ctx, fin⟩ := s
  cases ctx <;> cases ip <;>
    simp only [togglePlay] <;>
    split_ifs <;>
    first
      | exact h
      | exact playSegment_idx_lt N 0 _ h

/-- The state the player reaches after auto-playing a one-segment
project and receiving the narration-completion callback: playback has
halted past the last segment (the ghost FINISHED flag is set), the last
source is still bound and ended, and `currentSegmentIndex` is still 0 —
NOT the segment count 1, because the early return of `playSegment`
never writes the index. -/
def finishedOneSeg : PlayerState :=
  { isPlaying := false, currentSegmentIndex := 0, hasSource := true,
    sourceIndex := 0, sourceEnded := true, ctxRunning := true,
    finished := true }

/-- C1 counterexample: a reachable FINISHED state of a one-segment
project whose `currentSegmentIndex` (0) differs from the segment count
(1), refuting the claimed invariant `currentSegmentIndex = segmentCount
iff FINISHED`. -/
theorem finished_index_iff_cex :
    Reachable 1 finishedOneSeg ∧ finishedOneSeg.finished = true ∧
    ¬ finishedOneSeg.currentSegmentIndex = 1 := by
  refine ⟨?_, rfl, by decide⟩
  have h0 : Reachable 1 (playSegment 1 0 (initState true)).1 := Reachable.loadRunning
  have h1 := Reachable.step _ _ h0
    (Step.complete ((playSegment 1 0 (initState true)).1) rfl rfl rfl)
  exact h1

/-- C1 amended: in every reachable state of a project with at least one
segment, `currentSegmentIndex` is strictly below the segment count — in
particular it never equals the segment count, even in FINISHED states,
where the index stays at the last started segment. -/
theorem reachable_index_lt (N : Nat) (s : PlayerState)
    (hN : 1 ≤ N) (hreach : Reachable N s) : s.currentSegmentIndex < N := by
  induction hreach with
  | loadSuspended => simpa [initState] using hN
  | loadRunning =>
    exact playSegment_idx_lt N 0 (initState true) (by simpa [initState] using hN)
  | step s t hs hstep ih =>
    cases hstep with
    | complete h1 h2 h3 => exact playSegment_idx_lt N _ _ ih
    | toggle => exact togglePlay_idx_lt N s ih

theorem reachable_index_lt_witness :
    1 ≤ 1 ∧ (initState false).currentSegmentIndex < 1 :=
  ⟨by decide, reachable_index_lt 1 (initState false) (by decide) Reachable.loadSuspended⟩

/-- C3: Calling `playSegment` with an index at or past the segment
count of a nonempty project takes the FINISHED transition: `isPlaying`
becomes false, no audio-source command is issued (in particular no
source is started), and — the context running — the next render pass
does not schedule a further tick. -/
theorem playSegment_past_end_halts (N i : Nat) (s : PlayerState)
    (_hN : 1 ≤ N) (hi : N ≤ i) (hctx : s.ctxRunning = true) :
    (playSegment N i s).1.isPlaying = false ∧
    (playSegment N i s).1.finished = true ∧
    (playSegment N i s).2 = [] ∧
    renderTickSchedules N (playSegment N i s).1 = false := by
  simp [playSegment, hi, renderTickSchedules, hctx]

theorem playSegment_past_end_halts_witness :
    1 ≤ 1 ∧ (1 : Nat) ≤ 1 ∧ (initState true).ctxRunning = true ∧
    ((playSegment 1 1 (initState true)).1.isPlaying = false ∧
     (playSegment 1 1 (initState true)).1.finished = true ∧
     (playSegment 1 1 (initState true)).2 = [] ∧
     renderTickSchedules 1 (playSegment 1 1 (initState true)).1 = false) :=
  ⟨by decide, by decide, rfl,
   playSegment_past_end_halts 1 1 (initState true) (by decide) (by decide) rfl⟩

/-- C4: Whenever `playSegment` with an in-range index binds a new audio
source while one is currently bound, its audio-source command trace is
exactly a stop of the bound source followed by the start of the new
one: the stop strictly precedes the start, so two narration sources are
never active together. -/
theorem playSegment_stops_before_start (N i : Nat) (s : PlayerState)
    (hi : i < N) (hs : s.hasSource = true) :
    (playSegment N i s).2 =
      [PAction.stopSource s.sourceIndex, PAction.startSource i] := by
  have h : ¬ N ≤ i := Nat.not_le_of_lt hi
  simp [playSegment, h, hs]

theorem playSegment_stops_before_start_witness :
    0 < 1 ∧
    (playSegment 1 0 (playSegment 1 0 (initState true)).1).2 =
      [PAction.stopSource 0, PAction.startSource 0] :=
  ⟨by decide,
   playSegment_stops_before_start 1 0 ((playSegment 1 0 (initState true)).1)
     (by decide) rfl⟩

/-- C6: On a rendered frame of a fully decoded project (all segment
durations known and positive), with nonnegative elapsed time that has
not passed the current segment's duration, the progress-bar filled
fraction equals (sum of durations of the segments before the current
one + elapsed seconds into it) divided by the total duration, and lies
in [0, 1]. -/
theorem progressBar_fraction (bufs : List AudioBuffer) (i : Nat) (e : ℚ)
    (h1 : i < bufs.length) (h2 : 0 ≤ e)
    (h3 : ∀ b ∈ bufs, 0 < b.duration)
    (h4 : e / 1000 ≤ (bufs.get ⟨i, h1⟩).duration) :
    totalProgressPct bufs i e =
      (sumDurations (bufs.take i) + e / 1000) / sumDurations bufs ∧
    0 ≤ totalProgressPct bufs i e ∧ totalProgressPct bufs i e ≤ 1 := by
  have hsplit : sumDurations bufs =
      sumDurations (bufs.take i) + (bufs.get ⟨i, h1⟩).duration +
        sumDurations (bufs.drop (i + 1)) := by
    conv_lhs => rw [← List.take_append_drop i bufs]
    rw [sumDurations_append, List.drop_eq_getElem_cons h1, sumDurations_cons]
    rw [List.get_eq_getElem]
    ring
  have hP : 0 ≤ sumDurations (bufs.take i) :=
    sumDurations_nonneg _ (fun b hb => (h3 b (List.mem_of_mem_take hb)).le)
  have hR : 0 ≤ sumDurations (bufs.drop (i + 1)) :=
    sumDurations_nonneg _ (fun b hb => (h3 b (List.mem_of_mem_drop hb)).le)
  have hd : 0 < (bufs.get ⟨i, h1⟩).duration := h3 _ (List.get_mem bufs i h1)
  have hT : 0 < sumDurations bufs := by rw [hsplit]; linarith
  have he : 0 ≤ e / 1000 := by positivity
  have hnum : 0 ≤ sumDurations (bufs.take i) + e / 1000 := by linarith
  have hle : sumDurations (bufs.take i) + e / 1000 ≤ sumDurations bufs := by
    rw [hsplit]; linarith
  have hmin : totalProgressPct bufs i e =
      (sumDurations (bufs.take i) + e / 1000) / sumDurations bufs := by
    unfold totalProgressPct
    exact min_eq_left ((div_le_one hT).mpr hle)
  refine ⟨hmin, ?_, ?_⟩
  · rw [hmin]; exact div_nonneg hnum hT.le
  · rw [hmin]; exact (div_le_one hT).mpr hle

/-- Two decoded buffers of 3.0 s and 2.0 s at 24 kHz, for the
end-to-end progress example. -/
def demoBuffers : List AudioBuffer :=
  [{ numChannels := 1, length := 72000, sampleRate := 24000, channelData := [] },
   { numChannels := 1, length := 48000, sampleRate := 24000, channelData := [] }]

theorem progressBar_fraction_witness :
    (0 : ℚ) ≤ 0 ∧
    totalProgressPct demoBuffers 1 0 =
      (sumDurations (demoBuffers.take 1) + (0 : ℚ) / 1000) / sumDurations demoBuffers ∧
    totalProgressPct demoBuffers 1 0 = 3 / 5 := by
  have h3 : ∀ b ∈ demoBuffers, 0 < b.duration := by
    intro b hb
    simp only [demoBuffers, List.mem_cons, List.not_mem_nil, or_false] at hb
    rcases hb with h | h <;> subst h <;> norm_num [AudioBuffer.duration]
  have h4 : (0 : ℚ) / 1000 ≤ (demoBuffers.get ⟨1, by decide⟩).duration := by
    norm_num [demoBuffers, AudioBuffer.duration, List.get]
  have hmain := progressBar_fraction demoBuffers 1 0 (by decide) (le_refl 0) h3 h4
  refine ⟨le_refl 0, hmain.1, ?_⟩
  rw [hmain.1]
  norm_num [demoBuffers, sumDurations, AudioBuffer.duration]

/-- C8: On every rendered frame the zoom scale equals
`1.0 + 0.15 * segmentProgress` with `segmentProgress` the clamp of
elapsed-over-duration to [0, 1]; the scale is 1.0 at progress 0, 1.15
at progress 1, and strictly increasing in the progress. -/
theorem kenBurns_zoom_scale (e : ℚ) (b : Option AudioBuffer) (p q : ℚ)
    (hpq : p < q) :
    kenBurnsScale (segProgress e b) = 1 + segProgress e b * (15 / 100) ∧
    0 ≤ segProgress e b ∧ segProgress e b ≤ 1 ∧
    kenBurnsScale 0 = 1 ∧ kenBurnsScale 1 = 23 / 20 ∧
    kenBurnsScale p < kenBurnsScale q := by
  refine ⟨rfl, ?_, ?_, by norm_num [kenBurnsScale], by norm_num [kenBurnsScale], ?_⟩
  · exact le_min (le_max_right _ _) zero_le_one
  · exact min_le_right _ _
  · have hmul : p * (15 / 100) < q * (15 / 100) :=
      mul_lt_mul_of_pos_right hpq (by norm_num)
    unfold kenBurnsScale
    linarith

theorem kenBurns_zoom_scale_witness :
    (0 : ℚ) < 1 ∧
    (kenBurnsScale (segProgress 0 none) = 1 + segProgress 0 none * (15 / 100) ∧
     0 ≤ segProgress 0 none ∧ segProgress 0 none ≤ 1 ∧
     kenBurnsScale 0 = 1 ∧ kenBurnsScale 1 = 23 / 20 ∧
     kenBurnsScale 0 < kenBurnsScale 1) :=
  ⟨by norm_num, kenBurns_zoom_scale 0 none 0 1 (by norm_num)⟩

end SmartPlayer
